import Mathlib

/- Verification development for the anonymous-messaging web application.
   JavaScript strings manipulated by the client code are modelled as `List Char`;
   the fractional pixel widths returned by canvas measureText are modelled as `ℚ`,
   with the measurement itself an arbitrary function `width : List Char → ℚ`. -/

/-- JS `s.split(c)` for a single-character separator: splits on every occurrence
of `c`, keeping empty pieces (consecutive separators yield empty-string pieces),
and returns the one-piece list `[[]]` on empty input, as in JavaScript. -/
def splitCh (c : Char) : List Char → List (List Char)
  | [] => [[]]
  | x :: xs =>
    if x = c then [] :: splitCh c xs
    else (splitCh c xs).modifyHead (fun y => x :: y)

/-- Concatenation of a list of pieces, each one followed by a single copy of the
separator character: this is exactly how the wrap loop accumulates
`line + words[n] + " "`. -/
def joinTrail (c : Char) (ws : List (List Char)) : List Char :=
  (ws.map (fun w => w ++ [c])).flatten

/-- Join pieces with a single separator character between consecutive pieces. -/
def joinSep (c : Char) : List (List Char) → List Char
  | [] => []
  | [l] => l
  | l :: ls => l ++ c :: joinSep c ls

/-- The non-empty space-separated words of a string. -/
def wordsOf (s : List Char) : List (List Char) :=
  (splitCh ' ' s).filter (fun w => w ≠ [])

/-- Whitespace normalization: collapse runs of spaces and trim leading and
trailing spaces, by keeping only the non-empty words and re-joining them with
single spaces. -/
def normalizeWs (s : List Char) : List Char :=
  joinSep ' ' (wordsOf s)

/-- Loop body of `wrapText` from `downloadMessage` (src/api/messages.ts:530-547)
and of the identical inline wrap in `downloadVideoTemplate`
(src/api/messages.ts:296-313): iterate over `words` with index `n`, keep the
accumulated `line`, form `testLine = line + words[n] + " "`, and when its
measured width exceeds `maxWidth` (and `n > 0`) flush (draw) `line` and restart
from `words[n] + " "`, else keep accumulating; after the loop the remaining
`line` is drawn. The returned list is the sequence of drawn (emitted) lines.
Geometric positions (x,y,lineHeight) affect only placement, not line content,
and are omitted. -/
def wrapAux (width : List Char → ℚ) (maxWidth : ℚ) :
    List (List Char) → Nat → List Char → List (List Char)
  | [], _, line => [line]
  | w :: ws, n, line =>
    let testLine := line ++ w ++ [' ']
    if width testLine > maxWidth ∧ n > 0 then
      line :: wrapAux width maxWidth ws (n + 1) (w ++ [' '])
    else
      wrapAux width maxWidth ws (n + 1) testLine

/-- `wrapText` (src/api/messages.ts:530-547): split the text on single spaces
and run the greedy wrap loop starting from the empty line at index 0. -/
def wrapText (width : List Char → ℚ) (maxWidth : ℚ) (text : List Char) : List (List Char) :=
  wrapAux width maxWidth (splitCh ' ' text) 0 []

/-- Elapsed seconds of the video-export frame loop
(src/api/messages.ts:213): `(Date.now() - startTime) / 1000`. -/
def elapsedSeconds (nowMs startMs : ℚ) : ℚ :=
  (nowMs - startMs) / 1000

/-- Progress computed by the frame callback `drawFrame`
(src/api/messages.ts:214): `Math.min(elapsed / duration, 1)`. -/
def progress (elapsed duration : ℚ) : ℚ :=
  min (elapsed / duration) 1

/-- Continuation test of the frame loop (src/api/messages.ts:363): the loop
schedules another frame only while `elapsed < duration + 1`; otherwise it calls
`recorder.stop()` and pauses the audio. -/
def frameContinues (elapsed duration : ℚ) : Bool :=
  elapsed < duration + 1

/-- Flush delay, in seconds, used by the audio `onended` handler
(src/api/messages.ts:374-379): `setTimeout(() => recorder.stop(), 500)`. -/
def flushDelaySeconds : ℚ :=
  500 / 1000

/-- The recording stop time when both stop triggers race: the frame loop stops
at `loopStopTime` and the audio end handler stops at `audioEndTime` plus the
flush delay; the recorder stops at whichever occurs first. -/
def recorderStopTime (loopStopTime audioEndTime : ℚ) : ℚ :=
  min loopStopTime (audioEndTime + flushDelaySeconds)

/-- MIME-to-extension table of `sendAudioMessage` (src/unnamed/part_000:172-182). -/
def extMap : List (String × String) :=
  [("audio/webm", "webm"),
   ("audio/webm;codecs=opus", "webm"),
   ("audio/mpeg", "mp3"),
   ("audio/mp3", "mp3"),
   ("audio/mp4", "m4a"),
   ("audio/aac", "m4a"),
   ("audio/wav", "wav"),
   ("audio/ogg", "ogg"),
   ("audio/ogg;codecs=opus", "ogg")]

/-- Extension lookup `extMap[mime] || 'webm'` (src/unnamed/part_000:183). -/
def extFor (mime : String) : String :=
  ((extMap.find? (fun p => p.1 == mime)).map Prod.snd).getD "webm"

/-- MIME resolution `audioBlob.type || 'audio/webm'` (src/unnamed/part_000:171):
a blob with an empty type string falls back to `audio/webm`. -/
def resolvedMime (blobType : String) : String :=
  if blobType = "" then "audio/webm" else blobType

/-- Uploaded file name `${Date.now()}-${profile.id}.${ext}`
(src/unnamed/part_000:184). -/
def audioFileName (nowMs : Nat) (recipientId : String) (mime : String) : String :=
  toString nowMs ++ "-" ++ recipientId ++ "." ++ extFor mime

/-- Stored audio reference written into the message row,
`audio-messages/${fileName}` (src/unnamed/part_000:203). -/
def storedAudioUrl (nowMs : Nat) (recipientId : String) (mime : String) : String :=
  "audio-messages/" ++ audioFileName nowMs recipientId mime

/-- JS `s.trim()`: remove whitespace from both ends of the string. -/
def trimWs (s : List Char) : List Char :=
  ((s.dropWhile Char.isWhitespace).reverse.dropWhile Char.isWhitespace).reverse

/-- A message row as the dashboard sees it (src/api/messages.ts:30-37); the
nullable text and audio columns are `Option`s, `null` being `none`, and the
text itself is in the `List Char` string model. -/
structure Message where
  id : String
  message_text : Option (List Char)
  audio_url : Option String
  message_type : String
  is_read : Bool
  created_at : String
deriving DecidableEq, Repr

/-- Placeholder drawn when the message has no usable text
(src/api/messages.ts:528). -/
def audioPlaceholder : List Char :=
  "Pesan audio diterima. Putar di Dashboard kamu.".toList

/-- Content text chosen by the still-image export (src/api/messages.ts:526-528):
`message.message_text && message.message_text.trim().length > 0 ?
message.message_text : placeholder`. A `null` or empty text is falsy in
JavaScript and also fails the trimmed-length test, so both take the fallback. -/
def contentText (m : Message) : List Char :=
  match m.message_text with
  | none => audioPlaceholder
  | some t => if (trimWs t).length > 0 then t else audioPlaceholder

/-- Inner text width of the still-image card (src/api/messages.ts:438-551):
canvas width 1080, card padding 72 on each side, 48 px inset on each side of
the text, so `textWidth = (1080 - 2*72) - 96 = 840`. -/
def textMaxWidth : ℚ :=
  (1080 - 72 * 2) - 96

/-- One observable step of the still-image export `downloadMessage`
(src/api/messages.ts:436-592), in source order: background, decorative dots,
card, title, badge, one draw call per wrapped text line, the audio-only
waveform bars and icon, footer, JPEG encoding, and the triggered download. -/
inductive ExportStep where
  | drawBackground
  | drawPolkaDots (count : Nat)
  | drawCard
  | drawTitle (title : String)
  | drawBadge (label : String)
  | drawTextLine (line : List Char)
  | drawWaveformBars (count : Nat)
  | drawAudioIcon
  | drawFooter (footer : String)
  | encodeJpeg (quality : ℚ)
  | triggerDownload (filename : String)
deriving DecidableEq, Repr

/-- Effect trace of the still-image export `downloadMessage`
(src/api/messages.ts:436-592). `ctx` is the result of acquiring the 2D canvas
context: when it is `none` the function returns at once (line 443) and no step
is performed. `width` abstracts `ctx.measureText` and `fmt` abstracts the
date-fns `format` applied to `message.created_at`. -/
def downloadMessage (ctx : Option Unit) (width : List Char → ℚ)
    (fmt : String → String) (m : Message) : List ExportStep :=
  match ctx with
  | none => []
  | some _ =>
    [ExportStep.drawBackground, ExportStep.drawPolkaDots 50, ExportStep.drawCard,
     ExportStep.drawTitle
       (if m.message_type = "audio" then "Anonymous Audio Message" else "Anonymous Message"),
     ExportStep.drawBadge m.message_type.toUpper]
    ++ (wrapText width textMaxWidth (contentText m)).map ExportStep.drawTextLine
    ++ (if m.message_type = "audio"
          then [ExportStep.drawWaveformBars 48, ExportStep.drawAudioIcon]
          else [])
    ++ [ExportStep.drawFooter ("Diterima: " ++ fmt m.created_at),
        ExportStep.encodeJpeg (92 / 100),
        ExportStep.triggerDownload ("message-" ++ fmt m.created_at ++ ".jpg")]

/-- Recipient profile (src/unnamed/part_000:11-15). -/
structure Profile where
  id : String
  username : String
  display_name : String
deriving DecidableEq, Repr

/-- A row inserted into the messages table by the send view; columns absent
from the insert object are `none`. -/
structure InsertRow where
  recipient_id : String
  message_text : Option (List Char)
  audio_url : Option String
  message_type : String
deriving DecidableEq, Repr

/-- Row inserted by `sendTextMessage` (src/unnamed/part_000:131-162): guarded
by `!profile || !messageText.trim()` (a whitespace-only input trims to the
empty string, which is falsy), it inserts the trimmed text with type `text`
and no audio column. `none` means no insert happens. -/
def sendTextMessage (profile : Option Profile) (messageText : List Char) : Option InsertRow :=
  match profile with
  | none => none
  | some p =>
    if trimWs messageText = [] then none
    else
      some { recipient_id := p.id,
             message_text := some (trimWs messageText),
             audio_url := none,
             message_type := "text" }

/-- Row inserted by `sendAudioMessage` (src/unnamed/part_000:164-226): guarded
by `!profile || !audioBlob`; on a successful upload (`uploadOk`) it inserts the
stored path with type `audio` and no text column, and a failed upload throws
before the insert. `blobType` is the blob MIME type string (empty when the
blob carries none). -/
def sendAudioMessage (profile : Option Profile) (audioBlob : Option String)
    (uploadOk : Bool) (nowMs : Nat) : Option InsertRow :=
  match profile, audioBlob with
  | some p, some blobType =>
    if uploadOk then
      some { recipient_id := p.id,
             message_text := none,
             audio_url := some (storedAudioUrl nowMs p.id (resolvedMime blobType)),
             message_type := "audio" }
    else none
  | _, _ => none

/-- Local-state update of `markAsRead` (src/api/messages.ts:97-110): map over
the messages, replacing the one whose id matches with a copy whose `is_read`
is `true` and leaving every other message as is. -/
def markAsRead (messageId : String) (msgs : List Message) : List Message :=
  msgs.map (fun msg => if msg.id = messageId then { msg with is_read := true } else msg)

/-! Helper lemmas about the string model. -/

theorem splitCh_nil (c : Char) : splitCh c [] = [[]] := rfl

theorem splitCh_cons_self (c : Char) (xs : List Char) :
    splitCh c (c :: xs) = [] :: splitCh c xs := by
  simp [splitCh]

theorem splitCh_cons_ne (c x : Char) (xs : List Char) (h : x ≠ c) :
    splitCh c (x :: xs) = (splitCh c xs).modifyHead (fun y => x :: y) := by
  simp [splitCh, h]

theorem splitCh_ne_nil (c : Char) (s : List Char) : splitCh c s ≠ [] := by
  induction s with
  | nil => simp [splitCh]
  | cons x xs ih =>
    by_cases hx : x = c
    · subst hx; simp [splitCh_cons_self]
    · rw [splitCh_cons_ne c x xs hx]
      cases h : splitCh c xs with
      | nil => exact absurd h ih
      | cons y ys => simp [List.modifyHead]

theorem splitCh_append_sep (c : Char) (a b : List Char) :
    splitCh c (a ++ c :: b) = splitCh c a ++ splitCh c b := by
  induction a with
  | nil => simp [splitCh_cons_self, splitCh_nil]
  | cons x xs ih =>
    by_cases hx : x = c
    · subst hx
      simp only [List.cons_append, splitCh_cons_self, ih, List.cons_append]
    · rw [List.cons_append, splitCh_cons_ne c x _ hx, splitCh_cons_ne c x xs hx, ih]
      cases h : splitCh c xs with
      | nil => exact absurd h (splitCh_ne_nil c xs)
      | cons y ys => simp [List.modifyHead]

theorem splitCh_of_not_mem (c : Char) (w : List Char) (h : c ∉ w) :
    splitCh c w = [w] := by
  induction w with
  | nil => rfl
  | cons x xs ih =>
    have hx : x ≠ c := fun hxc => h (hxc ▸ List.mem_cons_self x xs)
    have hxs : c ∉ xs := fun hc => h (List.mem_cons_of_mem x hc)
    rw [splitCh_cons_ne c x xs hx, ih hxs]
    rfl

theorem not_mem_of_mem_splitCh (c : Char) (s : List Char) (w : List Char)
    (hw : w ∈ splitCh c s) : c ∉ w := by
  induction s generalizing w with
  | nil =>
    simp only [splitCh_nil, List.mem_singleton] at hw
    subst hw; simp
  | cons x xs ih =>
    by_cases hx : x = c
    · subst hx
      rw [splitCh_cons_self] at hw
      rcases List.mem_cons.mp hw with h | h
      · subst h; simp
      · exact ih w h
    · rw [splitCh_cons_ne c x xs hx] at hw
      cases h : splitCh c xs with
      | nil => exact absurd h (splitCh_ne_nil c xs)
      | cons y ys =>
        rw [h] at hw
        simp only [List.modifyHead] at hw
        rcases List.mem_cons.mp hw with h2 | h2
        · subst h2
          intro hc
          rcases List.mem_cons.mp hc with h3 | h3
          · exact hx h3.symm
          · exact ih y (h ▸ List.mem_cons_self y ys) h3
        · exact ih w (h ▸ List.mem_cons_of_mem y h2)

theorem joinTrail_nil (c : Char) : joinTrail c [] = [] := rfl

theorem joinTrail_cons (c : Char) (w : List Char) (ws : List (List Char)) :
    joinTrail c (w :: ws) = w ++ c :: joinTrail c ws := by
  simp [joinTrail]

theorem joinTrail_append (c : Char) (a b : List (List Char)) :
    joinTrail c (a ++ b) = joinTrail c a ++ joinTrail c b := by
  simp [joinTrail]

theorem joinTrail_splitCh (c : Char) (s : List Char) :
    joinTrail c (splitCh c s) = s ++ [c] := by
  induction s with
  | nil => rfl
  | cons x xs ih =>
    by_cases hx : x = c
    · subst hx
      rw [splitCh_cons_self, joinTrail_cons, ih]
      simp
    · rw [splitCh_cons_ne c x xs hx]
      cases h : splitCh c xs with
      | nil => exact absurd h (splitCh_ne_nil c xs)
      | cons y ys =>
        rw [h] at ih
        simp only [List.modifyHead, joinTrail_cons] at ih ⊢
        rw [List.cons_append, ih]
        simp

theorem splitCh_joinTrail (c : Char) (b : List (List Char))
    (h : ∀ w ∈ b, c ∉ w) : splitCh c (joinTrail c b) = b ++ [[]] := by
  induction b with
  | nil => rfl
  | cons w ws ih =>
    rw [joinTrail_cons, splitCh_append_sep,
      splitCh_of_not_mem c w (h w (List.mem_cons_self w ws)),
      ih (fun v hv => h v (List.mem_cons_of_mem w hv))]
    rfl

theorem filter_ne_nil_flatten (L : List (List (List Char))) :
    L.flatten.filter (fun w => w ≠ []) = (L.map (fun b => b.filter (fun w => w ≠ []))).flatten := by
  induction L with
  | nil => rfl
  | cons b L ih => simp [List.filter_append, ih]

theorem wordsOf_joinTrail (b : List (List Char)) (h : ∀ w ∈ b, ' ' ∉ w) :
    wordsOf (joinTrail ' ' b) = b.filter (fun w => w ≠ []) := by
  unfold wordsOf
  rw [splitCh_joinTrail ' ' b h, List.filter_append]
  simp

theorem wordsOf_joinSep (ls : List (List Char)) (hls : ls ≠ []) :
    wordsOf (joinSep ' ' ls) = (ls.map wordsOf).flatten := by
  induction ls with
  | nil => exact absurd rfl hls
  | cons l t ih =>
    cases t with
    | nil => simp [joinSep, wordsOf]
    | cons l2 t2 =>
      have hst : joinSep ' ' (l :: l2 :: t2) = l ++ ' ' :: joinSep ' ' (l2 :: t2) := rfl
      rw [hst]
      unfold wordsOf
      rw [splitCh_append_sep, List.filter_append]
      have ih2 := ih (by simp)
      unfold wordsOf at ih2
      rw [ih2]
      simp [wordsOf]

/-! Core lemmas about the greedy wrap loop. -/

theorem wrapAux_ne_nil (width : List Char → ℚ) (maxWidth : ℚ) :
    ∀ (ws : List (List Char)) (n : Nat) (line : List Char),
      wrapAux width maxWidth ws n line ≠ [] := by
  intro ws
  induction ws with
  | nil => intro n line; simp [wrapAux]
  | cons w ws ih =>
    intro n line
    simp only [wrapAux]
    split
    · simp
    · exact ih (n + 1) _

/-- Safety invariant of the wrap loop: every emitted line either measures within
`maxWidth` or consists of a single word (with its trailing space). -/
theorem wrapAux_width_le (width : List Char → ℚ) (maxWidth : ℚ) (W : List (List Char)) :
    ∀ (ws : List (List Char)) (n : Nat) (line : List Char),
      (∀ w ∈ ws, w ∈ W) →
      (n = 0 → line = [] ∧ ws ≠ []) →
      (0 < n → width line ≤ maxWidth ∨ ∃ w ∈ W, line = w ++ [' ']) →
      ∀ l ∈ wrapAux width maxWidth ws n line,
        width l ≤ maxWidth ∨ ∃ w ∈ W, l = w ++ [' '] := by
  intro ws
  induction ws with
  | nil =>
    intro n line _ h0 h1 l hl
    simp only [wrapAux, List.mem_singleton] at hl
    subst hl
    rcases Nat.eq_zero_or_pos n with hn | hn
    · exact absurd rfl (h0 hn).2
    · exact h1 hn
  | cons w ws ih =>
    intro n line hmem h0 h1 l hl
    simp only [wrapAux] at hl
    split at hl
    · rename_i hcond
      rcases List.mem_cons.mp hl with h | h
      · subst h
        exact h1 hcond.2
      · refine ih (n + 1) (w ++ [' ']) (fun v hv => hmem v (List.mem_cons_of_mem w hv))
          (by simp) (fun _ => Or.inr ⟨w, hmem w (List.mem_cons_self w ws), rfl⟩) l h
    · rename_i hcond
      rcases not_and_or.mp hcond with hw | hn
      · exact ih (n + 1) (line ++ w ++ [' ']) (fun v hv => hmem v (List.mem_cons_of_mem w hv))
          (by simp) (fun _ => Or.inl (not_lt.mp hw)) l hl
      · have hn0 : n = 0 := Nat.eq_zero_of_not_pos hn
        have hline : line = [] := (h0 hn0).1
        subst hline
        exact ih (n + 1) ([] ++ w ++ [' ']) (fun v hv => hmem v (List.mem_cons_of_mem w hv))
          (by simp) (fun _ => Or.inr ⟨w, hmem w (List.mem_cons_self w ws), by simp⟩) l hl

/-- If the measured width of the fully accumulated line never exceeds
`maxWidth`, the loop never flushes and emits the single accumulated line. -/
theorem wrapAux_no_flush (width : List Char → ℚ) (maxWidth : ℚ)
    (mono : ∀ s t, width s ≤ width (s ++ t)) :
    ∀ (ws : List (List Char)) (n : Nat) (line : List Char),
      width (line ++ joinTrail ' ' ws) ≤ maxWidth →
      wrapAux width maxWidth ws n line = [line ++ joinTrail ' ' ws] := by
  intro ws
  induction ws with
  | nil => intro n line _; simp [wrapAux, joinTrail_nil]
  | cons w ws ih =>
    intro n line h
    have hassoc : line ++ joinTrail ' ' (w :: ws) = (line ++ w ++ [' ']) ++ joinTrail ' ' ws := by
      rw [joinTrail_cons]
      simp
    have htest : width (line ++ w ++ [' ']) ≤ maxWidth :=
      le_trans (mono (line ++ w ++ [' ']) (joinTrail ' ' ws)) (by rw [← hassoc]; exact h)
    simp only [wrapAux]
    rw [if_neg (fun hc => absurd hc.1 (not_lt.mpr htest)), ih (n + 1) (line ++ w ++ [' '])
      (by rw [← hassoc]; exact h), hassoc]

/-- Structure of the wrap output: the emitted lines are the groups of a
partition of the word list, each group rendered with one trailing space per
word. No word is dropped, duplicated or reordered. -/
theorem wrapAux_blocks (width : List Char → ℚ) (maxWidth : ℚ) :
    ∀ (ws : List (List Char)) (n : Nat) (pre : List (List Char)),
      ∃ blocks : List (List (List Char)),
        wrapAux width maxWidth ws n (joinTrail ' ' pre) = blocks.map (joinTrail ' ') ∧
        blocks.flatten = pre ++ ws ∧ blocks ≠ [] := by
  intro ws
  induction ws with
  | nil =>
    intro n pre
    exact ⟨[pre], by simp [wrapAux], by simp, by simp⟩
  | cons w ws ih =>
    intro n pre
    simp only [wrapAux]
    split
    · obtain ⟨bs, hmap, hflat, _⟩ := ih (n + 1) [w]
      have hw : joinTrail ' ' [w] = w ++ [' '] := by simp [joinTrail]
      refine ⟨pre :: bs, ?_, ?_, by simp⟩
      · rw [List.map_cons, ← hmap, hw]
      · simp [hflat]
    · obtain ⟨bs, hmap, hflat, hne⟩ := ih (n + 1) (pre ++ [w])
      have htest : joinTrail ' ' pre ++ w ++ [' '] = joinTrail ' ' (pre ++ [w]) := by
        rw [joinTrail_append]
        simp [joinTrail]
      refine ⟨bs, ?_, ?_, hne⟩
      · rw [htest, hmap]
      · rw [hflat]
        simp

/-! Claim theorems. -/

/-- C1: the image-export word wrap is the greedy wrap: it accumulates words
into the current line, measures the line extended by the next word, and
flushes the current line before starting a new one whenever the extension
would exceed the available width, so every emitted line either fits within
`maxWidth` or is a single-word line (one word plus its trailing space). -/
theorem c1_wrap_greedy_width (width : List Char → ℚ) (maxWidth : ℚ) (text : List Char) :
    ∀ l ∈ wrapText width maxWidth text,
      width l ≤ maxWidth ∨ ∃ w ∈ splitCh ' ' text, l = w ++ [' '] := by
  intro l hl
  exact wrapAux_width_le width maxWidth (splitCh ' ' text) (splitCh ' ' text) 0 []
    (fun w hw => hw) (fun _ => ⟨rfl, splitCh_ne_nil ' ' text⟩)
    (fun h => absurd h (by simp)) l hl

theorem c1_wrap_greedy_width_witness :
    (['c', 'd', ' '] ∈
        wrapText (fun s => (if s.length ≤ 3 then 1 else 10 : ℚ)) 5 "ab cd".toList) ∧
      ((fun s => (if s.length ≤ 3 then 1 else 10 : ℚ)) ['c', 'd', ' '] ≤ 5 ∨
        ∃ w ∈ splitCh ' ' "ab cd".toList, ['c', 'd', ' '] = w ++ [' ']) :=
  ⟨by decide,
   c1_wrap_greedy_width (fun s => (if s.length ≤ 3 then 1 else 10 : ℚ)) 5 "ab cd".toList
     ['c', 'd', ' '] (by decide)⟩

/-- C3: when the rendered width of the whole text (with the trailing space the
loop appends) never exceeds the available width — the measurement being
monotone under extension, as canvas text measurement is — the wrap routine
performs exactly one text-draw call, containing the whole text. -/
theorem c3_single_line (width : List Char → ℚ) (maxWidth : ℚ) (text : List Char)
    (mono : ∀ s t, width s ≤ width (s ++ t))
    (h : width (text ++ [' ']) ≤ maxWidth) :
    wrapText width maxWidth text = [text ++ [' ']] := by
  unfold wrapText
  rw [wrapAux_no_flush width maxWidth mono (splitCh ' ' text) 0 []
    (by rw [List.nil_append, joinTrail_splitCh]; exact h)]
  rw [List.nil_append, joinTrail_splitCh]

theorem c3_single_line_witness :
    wrapText (fun s => (s.length : ℚ)) 10 "hi".toList = ["hi ".toList] :=
  c3_single_line (fun s => (s.length : ℚ)) 10 "hi".toList
    (fun s t => by simp) (by decide)

/-- C4: concatenating the emitted lines with single spaces reinserted between
them yields the original text up to whitespace normalization (collapsing runs
of spaces and trimming leading and trailing spaces); the sequence of non-empty
words is preserved exactly, so no word is dropped, duplicated or reordered. -/
theorem c4_wrap_join_normalize (width : List Char → ℚ) (maxWidth : ℚ) (text : List Char) :
    wordsOf (joinSep ' ' (wrapText width maxWidth text)) = wordsOf text ∧
      normalizeWs (joinSep ' ' (wrapText width maxWidth text)) = normalizeWs text := by
  obtain ⟨blocks, hmap, hflat, hne⟩ := wrapAux_blocks width maxWidth (splitCh ' ' text) 0 []
  rw [List.nil_append] at hflat
  have hwrap : wrapText width maxWidth text = blocks.map (joinTrail ' ') := hmap
  have hmemfree : ∀ b ∈ blocks, ∀ w ∈ b, ' ' ∉ w := by
    intro b hb w hw
    exact not_mem_of_mem_splitCh ' ' text w
      (hflat ▸ List.mem_flatten.mpr ⟨b, hb, hw⟩)
  have hwords : wordsOf (joinSep ' ' (wrapText width maxWidth text)) = wordsOf text := by
    rw [hwrap, wordsOf_joinSep _ (by simpa using hne), List.map_map]
    have hcongr : blocks.map (wordsOf ∘ joinTrail ' ') =
        blocks.map (fun b => b.filter (fun w => w ≠ [])) := by
      refine List.map_congr_left ?_
      intro b hb
      exact wordsOf_joinTrail b (hmemfree b hb)
    rw [hcongr, ← filter_ne_nil_flatten, hflat]
    rfl
  exact ⟨hwords, by unfold normalizeWs; rw [hwords]⟩

/-- C2: for every positive duration `d` and elapsed times `0 ≤ t ≤ u`, the
progress computed by the video-export frame callback equals `min (t / d) 1`
and is monotonically non-decreasing in the elapsed time. -/
theorem c2_progress_clamped_monotone (d t u : ℚ) (hd : 0 < d) (ht : 0 ≤ t)
    (htu : t ≤ u) :
    progress t d = min (t / d) 1 ∧ progress t d ≤ progress u d := by
  refine ⟨rfl, ?_⟩
  unfold progress
  exact min_le_min (by gcongr) le_rfl

theorem c2_progress_clamped_monotone_witness :
    0 < (2 : ℚ) ∧ 0 ≤ (1 : ℚ) ∧ (1 : ℚ) ≤ 3 ∧
      (progress 1 2 = min (1 / 2) 1 ∧ progress 1 2 ≤ progress 3 2) :=
  ⟨by decide, by decide, by decide,
   c2_progress_clamped_monotone 2 1 3 (by decide) (by decide) (by decide)⟩

/-- C5: for a positive duration, a frame tick continues the loop exactly when
its elapsed time is below `duration + 1` (so any tick at or past `duration + 1`
calls `recorder.stop()`, and the first such tick stops the loop), and the audio
end event independently schedules a stop after the 500 ms flush delay, the
recorder stopping at whichever of the two stop times occurs first. -/
theorem c5_stop_within_margin (d : ℚ) (ticks : ℕ → ℚ) (loopStop audioEnd : ℚ)
    (hd : 0 < d) (hreach : ∃ n, frameContinues (ticks n) d = false) :
    (∀ t, frameContinues t d = true ↔ t < d + 1) ∧
      (∃ n, frameContinues (ticks n) d = false ∧ d + 1 ≤ ticks n ∧
        ∀ m, m < n → frameContinues (ticks m) d = true) ∧
      flushDelaySeconds = 1 / 2 ∧
      recorderStopTime loopStop audioEnd ≤ loopStop ∧
      recorderStopTime loopStop audioEnd ≤ audioEnd + flushDelaySeconds ∧
      (recorderStopTime loopStop audioEnd = loopStop ∨
        recorderStopTime loopStop audioEnd = audioEnd + flushDelaySeconds) := by
  refine ⟨fun t => by simp [frameContinues], ?_, by norm_num [flushDelaySeconds],
    min_le_left _ _, min_le_right _ _, min_choice _ _⟩
  have hge : ∀ x : ℚ, frameContinues x d = false → d + 1 ≤ x := by
    intro x hx
    simp only [frameContinues, decide_eq_false_iff_not, not_lt] at hx
    exact hx
  exact ⟨Nat.find hreach, Nat.find_spec hreach, hge _ (Nat.find_spec hreach),
    fun m hm => by simpa using Nat.find_min hreach hm⟩

theorem c5_stop_within_margin_witness :
    0 < (2 : ℚ) ∧ (∃ n, frameContinues ((fun k => if k < 3 then 0 else 4 : ℕ → ℚ) n) 2 = false) ∧
      ((∀ t, frameContinues t 2 = true ↔ t < 2 + 1) ∧
        (∃ n, frameContinues ((fun k => if k < 3 then 0 else 4 : ℕ → ℚ) n) 2 = false ∧
          2 + 1 ≤ (fun k => if k < 3 then 0 else 4 : ℕ → ℚ) n ∧
          ∀ m, m < n → frameContinues ((fun k => if k < 3 then 0 else 4 : ℕ → ℚ) m) 2 = true) ∧
        flushDelaySeconds = 1 / 2 ∧
        recorderStopTime 3 1 ≤ 3 ∧
        recorderStopTime 3 1 ≤ 1 + flushDelaySeconds ∧
        (recorderStopTime 3 1 = 3 ∨ recorderStopTime 3 1 = 1 + flushDelaySeconds)) :=
  ⟨by decide, ⟨3, by norm_num [frameContinues]⟩,
   c5_stop_within_margin 2 (fun k => if k < 3 then 0 else 4) 3 1 (by decide)
     ⟨3, by norm_num [frameContinues]⟩⟩

/-- C6: the stored object path for an uploaded audio blob is
`audio-messages/<epoch-millis>-<recipientId>.<ext>`, the extension coming from
the fixed MIME-to-extension table with `webm` as the fallback for MIME types
absent from the table; in particular `audio/mp4` maps to `m4a`. -/
theorem c6_audio_storage_path (nowMs : Nat) (rid mime : String) :
    storedAudioUrl nowMs rid mime =
      "audio-messages/" ++ toString nowMs ++ "-" ++ rid ++ "." ++ extFor mime ∧
      extFor "audio/mp4" = "m4a" ∧
      (mime ∈ extMap.map Prod.fst ∨ extFor mime = "webm") := by
  refine ⟨?_, by decide, ?_⟩
  · simp [storedAudioUrl, audioFileName, String.append_assoc]
  · by_cases h : mime ∈ extMap.map Prod.fst
    · exact Or.inl h
    · refine Or.inr ?_
      have hnone : extMap.find? (fun p => p.1 == mime) = none := by
        rw [List.find?_eq_none]
        intro p hp
        simp only [beq_iff_eq]
        intro hpe
        exact h (hpe ▸ List.mem_map_of_mem Prod.fst hp)
      rw [extFor, hnone]
      rfl

/-- C7: a message of type `audio` whose text field is null, empty or
whitespace-only gets the fixed placeholder as content text in the image
export; a message whose trimmed text is non-empty gets its original text. -/
theorem c7_audio_placeholder (m : Message) :
    ((m.message_type = "audio" ∧
        (m.message_text = none ∨ ∃ t, m.message_text = some t ∧ trimWs t = [])) →
      contentText m = audioPlaceholder) ∧
      (∀ t, m.message_text = some t → trimWs t ≠ [] → contentText m = t) := by
  constructor
  · rintro ⟨-, hnone | ⟨t, ht, htrim⟩⟩
    · simp [contentText, hnone]
    · simp [contentText, ht, htrim]
  · intro t ht htrim
    have hlen : (trimWs t).length > 0 := List.length_pos.mpr htrim
    simp [contentText, ht, hlen]

theorem c7_audio_placeholder_witness :
    contentText ⟨"m1", some "   ".toList, some "audio-messages/f.webm", "audio", false, "d1"⟩ =
        audioPlaceholder ∧
      contentText ⟨"m2", some " hi ".toList, none, "text", false, "d2"⟩ = " hi ".toList :=
  ⟨(c7_audio_placeholder _).1 ⟨rfl, Or.inr ⟨"   ".toList, rfl, by decide⟩⟩,
   (c7_audio_placeholder _).2 " hi ".toList rfl (by decide)⟩

/-- C8: when the 2D canvas context cannot be acquired, the still-image export
returns immediately with no observable step: nothing is drawn, no JPEG is
encoded and no download is triggered. -/
theorem c8_no_context_no_output (width : List Char → ℚ) (fmt : String → String)
    (m : Message) :
    downloadMessage none width fmt m = [] ∧
      (∀ q, ExportStep.encodeJpeg q ∉ downloadMessage none width fmt m) ∧
      ∀ f, ExportStep.triggerDownload f ∉ downloadMessage none width fmt m := by
  refine ⟨rfl, ?_, ?_⟩
  · intro q h
    simp [downloadMessage] at h
  · intro f h
    simp [downloadMessage] at h

/-- C9: every row inserted by the send view has type `text` with a non-empty
trimmed text and no audio reference, or type `audio` with an audio reference
and no text; the type `both` is never produced and exactly one of the two
content columns is populated. -/
theorem c9_insert_shape (profile : Option Profile) (messageText : List Char)
    (audioBlob : Option String) (uploadOk : Bool) (nowMs : Nat) (row : InsertRow)
    (h : sendTextMessage profile messageText = some row ∨
      sendAudioMessage profile audioBlob uploadOk nowMs = some row) :
    ((row.message_type = "text" ∧ (∃ t, row.message_text = some t ∧ t ≠ []) ∧
        row.audio_url = none) ∨
      (row.message_type = "audio" ∧ row.message_text = none ∧
        ∃ u, row.audio_url = some u)) ∧
      row.message_type ≠ "both" := by
  rcases h with h | h
  · match profile, h with
    | some p, h =>
      simp only [sendTextMessage] at h
      split at h
      · exact absurd h (by simp)
      · rename_i htrim
        have hrow := Option.some.inj h
        subst hrow
        exact ⟨Or.inl ⟨rfl, ⟨trimWs messageText, rfl, htrim⟩, rfl⟩, by simp⟩
  · match profile, audioBlob, h with
    | some p, some blobType, h =>
      simp only [sendAudioMessage] at h
      split at h
      · have hrow := Option.some.inj h
        subst hrow
        exact ⟨Or.inr ⟨rfl, rfl, ⟨_, rfl⟩⟩, by simp⟩
      · exact absurd h (by simp)

theorem c9_insert_shape_witness :
    (sendTextMessage (some ⟨"u1", "alice", "Alice"⟩) " hi ".toList =
        some ⟨"u1", some "hi".toList, none, "text"⟩ ∨
      sendAudioMessage (some ⟨"u1", "alice", "Alice"⟩) none true 7 =
        some ⟨"u1", some "hi".toList, none, "text"⟩) ∧
      (((InsertRow.message_type ⟨"u1", some "hi".toList, none, "text"⟩ = "text" ∧
          (∃ t, InsertRow.message_text ⟨"u1", some "hi".toList, none, "text"⟩ = some t ∧
            t ≠ []) ∧
          InsertRow.audio_url ⟨"u1", some "hi".toList, none, "text"⟩ = none) ∨
        (InsertRow.message_type ⟨"u1", some "hi".toList, none, "text"⟩ = "audio" ∧
          InsertRow.message_text ⟨"u1", some "hi".toList, none, "text"⟩ = none ∧
          ∃ u, InsertRow.audio_url ⟨"u1", some "hi".toList, none, "text"⟩ = some u)) ∧
        InsertRow.message_type ⟨"u1", some "hi".toList, none, "text"⟩ ≠ "both") :=
  ⟨Or.inl (by decide),
   c9_insert_shape (some ⟨"u1", "alice", "Alice"⟩) " hi ".toList none true 7
     ⟨"u1", some "hi".toList, none, "text"⟩ (Or.inl (by decide))⟩

/-- C10: `markAsRead` on a message id leaves the list length unchanged, keeps
every field of the matching message except `is_read`, which becomes `true`,
and leaves every non-matching message entirely unchanged. -/
theorem c10_markAsRead_frame (messageId : String) (msgs : List Message)
    (i : Nat) (m : Message) (hm : msgs[i]? = some m) :
    (markAsRead messageId msgs).length = msgs.length ∧
      ∃ mUpd, (markAsRead messageId msgs)[i]? = some mUpd ∧
        mUpd.id = m.id ∧ mUpd.message_text = m.message_text ∧
        mUpd.audio_url = m.audio_url ∧ mUpd.message_type = m.message_type ∧
        mUpd.created_at = m.created_at ∧
        mUpd.is_read = (if m.id = messageId then true else m.is_read) ∧
        (m.id ≠ messageId → mUpd = m) := by
  refine ⟨by simp [markAsRead], ?_⟩
  refine ⟨if m.id = messageId then { m with is_read := true } else m, ?_, ?_⟩
  · rw [markAsRead, List.getElem?_map, hm]
    rfl
  · by_cases hid : m.id = messageId
    · simp [hid]
    · simp [hid]

theorem c10_markAsRead_frame_witness :
    ([⟨"m1", none, none, "text", false, "d1"⟩,
        ⟨"m2", some "hey".toList, none, "text", false, "d2"⟩] :
          List Message)[0]? = some ⟨"m1", none, none, "text", false, "d1"⟩ ∧
      ((markAsRead "m1" [⟨"m1", none, none, "text", false, "d1"⟩,
          ⟨"m2", some "hey".toList, none, "text", false, "d2"⟩]).length = 2 ∧
        ∃ mUpd, (markAsRead "m1" [⟨"m1", none, none, "text", false, "d1"⟩,
            ⟨"m2", some "hey".toList, none, "text", false, "d2"⟩])[0]? = some mUpd ∧
          mUpd.id = "m1" ∧ mUpd.message_text = none ∧ mUpd.audio_url = none ∧
          mUpd.message_type = "text" ∧ mUpd.created_at = "d1" ∧
          mUpd.is_read = (if "m1" = "m1" then true else false) ∧
          ("m1" ≠ "m1" → mUpd = ⟨"m1", none, none, "text", false, "d1"⟩)) :=
  ⟨by decide,
   c10_markAsRead_frame "m1"
     [⟨"m1", none, none, "text", false, "d1"⟩,
      ⟨"m2", some "hey".toList, none, "text", false, "d2"⟩] 0
     ⟨"m1", none, none, "text", false, "d1"⟩ (by decide)⟩
